import Mathlib

/-!
Shallow embedding of the caption-preprocessing pipeline of prepro.py
(neuraltalk2): tokenization, vocabulary construction with an UNK
sentinel, positional split assignment, and encoding of all captions into
one flat zero-padded matrix with 1-indexed inclusive span pointers.

Conventions of the embedding:
* Python ints are Nat (the script only ever handles non-negative
  quantities; the threshold, split sizes and max length are taken from
  the non-negative domain the specification fixes for them).
* Assignments into the numpy uint32 output arrays truncate modulo 2^32,
  written explicitly with u32.
* The counts dict is embedded as the occurrence-count function over the
  flattened token list; its key set is embedded as the deduplicated
  token list (the iteration order of a Python dict is unspecified, and
  no claim below depends on the order, only on membership).
* Fallible steps (dict lookup raising KeyError, assert statements,
  np.concatenate on an empty list) are embedded with Option / Except.
* Diagnostic print statements of the script are not part of the model.
-/

namespace Prepro

/-- Truncation performed by storing a Python int into a numpy uint32 cell. -/
def u32 (n : Nat) : Nat := n % 2 ^ 32

/-- The characters of string.punctuation, deleted from each caption by
translate(None, string.punctuation). -/
def pyPunct : List Char :=
  ['!', '\x22', '#', '$', '%', '&', '\x27', '(', ')', '*', '+', ',', '-', '.', '/',
   ':', ';', '<', '=', '>', '?', '@', '[', '\x5c', ']', '^', '_', '\x60', '\x7b',
   '|', '\x7d', '~']

/-- The whitespace characters recognised by Python strip and split. -/
def isPySpace (c : Char) : Bool :=
  c = ' ' || c = '\t' || c = '\n' || c = '\r' || c = '\x0b' || c = '\x0c'

/-- strip(): drop leading and trailing whitespace. -/
def pyStrip (s : List Char) : List Char :=
  ((s.dropWhile isPySpace).reverse.dropWhile isPySpace).reverse

/-- split() with no separator: split on runs of whitespace, dropping
empty pieces.  The second argument accumulates the current word in
reverse. -/
def pySplit : List Char → List Char → List String
  | [], [] => []
  | [], acc => [String.mk acc.reverse]
  | c :: rest, acc =>
    if isPySpace c then
      if acc.isEmpty then pySplit rest []
      else String.mk acc.reverse :: pySplit rest []
    else pySplit rest (c :: acc)

/-- One caption string to tokens:
str(s).lower().translate(None, string.punctuation).strip().split().
Python 2 str.lower lowercases the ASCII range, as Char.toLower does. -/
def tokenize (s : String) : List String :=
  pySplit (pyStrip ((s.toList.map Char.toLower).filter (fun c => !(pyPunct.contains c)))) []

/-- A corpus at the tokenized stage: per image, the list of
processed_tokens of its captions. -/
abbrev Corpus := List (List (List String))

/-- Every token occurrence of the corpus, flattened in corpus order. -/
def allTokens (toks : Corpus) : List String := (toks.map List.flatten).flatten

/-- counts.get(w, 0): the corpus-wide occurrence count of a word. -/
def wordCount (toks : Corpus) (w : String) : Nat := (allTokens toks).count w

/-- vocab before the sentinel: the distinct words whose count is
strictly above the threshold (the filtered key set of the counts dict). -/
def vocabKept (toks : Corpus) (thr : Nat) : List String :=
  (allTokens toks).dedup.filter (fun w => decide (thr < wordCount toks w))

/-- bad_words: the distinct words whose count is at most the threshold. -/
def badWords (toks : Corpus) (thr : Nat) : List String :=
  (allTokens toks).dedup.filter (fun w => decide (wordCount toks w ≤ thr))

/-- bad_count: total number of token occurrences of dropped words. -/
def badCount (toks : Corpus) (thr : Nat) : Nat :=
  ((badWords toks thr).map (wordCount toks)).sum

/-- The vocabulary list returned by build_vocab: the kept words, with
the UNK sentinel appended when bad_count is positive. -/
def build_vocab (toks : Corpus) (thr : Nat) : List String :=
  vocabKept toks thr ++ (if 0 < badCount toks thr then ["UNK"] else [])

/-- One final caption: each token is kept when its corpus count exceeds
the threshold and replaced by UNK otherwise. -/
def finalCaption (toks : Corpus) (thr : Nat) (txt : List String) : List String :=
  txt.map (fun w => if thr < wordCount toks w then w else "UNK")

/-- The final_captions field build_vocab writes on every image. -/
def final_captions (toks : Corpus) (thr : Nat) : Corpus :=
  toks.map (fun im => im.map (finalCaption toks thr))

/-- Lookup in a Python dict built by inserting the given key-value
pairs in order: a later pair with the same key overrides an earlier
one. -/
def dictOf : List (String × Nat) → String → Option Nat
  | [], _ => none
  | (k, v) :: rest, w =>
    match dictOf rest w with
    | some r => some r
    | none => if w = k then some v else none

/-- enumerate(vocab) shifted to 1-indexed values: the pairs (w, i+1). -/
def enumPairs : Nat → List String → List (String × Nat)
  | _, [] => []
  | i, w :: rest => (w, i + 1) :: enumPairs (i + 1) rest

/-- The word-to-id table of main: a dict mapping the word at 0-based
position i of the vocabulary to id i+1. -/
def wtoiOf (vocab : List String) : String → Option Nat :=
  dictOf (enumPairs 0 vocab)

/-- assign_splits: the split label of the record at position i is val
for i below num_val, test for i below num_val + num_test, train
otherwise. -/
def assign_splits (imgs : List α) (numVal numTest : Nat) : List String :=
  (List.range imgs.length).map (fun i =>
    if i < numVal then "val" else if i < numVal + numTest then "test" else "train")

/-- The arrays produced by encode_captions: the flat label matrix, the
two span-pointer arrays and the per-row length array (all uint32 on
disk). -/
structure EncodeResult where
  L : List (List Nat)
  label_start_ix : List Nat
  label_end_ix : List Nat
  label_length : List Nat
deriving DecidableEq

/-- The ways encode_captions can abort: the per-image assert on a
captionless image, a KeyError on a word absent from wtoi, the
ValueError of np.concatenate on an empty array list, and the two final
asserts. -/
inductive EncodeError where
  | noCaptions
  | missingWord
  | emptyConcat
  | shapeMismatch
  | zeroLength
deriving DecidableEq

/-- Sequential fallible map (left to right, first failure wins). -/
def optMap (f : α → Option β) : List α → Option (List β)
  | [] => some []
  | a :: rest =>
    match f a, optMap f rest with
    | some b, some bs => some (b :: bs)
    | _, _ => none

/-- One row of the label matrix: the zero-initialised row of width
max_length receives wtoi[w] at position k for every token position
k < max_length; tokens beyond max_length are never looked up. -/
def encodeRow (wtoi : String → Option Nat) (maxLength : Nat) (s : List String) :
    Option (List Nat) :=
  match optMap wtoi (s.take maxLength) with
  | none => none
  | some ids => some (ids.map u32 ++ List.replicate (maxLength - s.length) 0)

/-- The value of a successfully encoded row, as a total function. -/
def pureRow (wtoi : String → Option Nat) (maxLength : Nat) (s : List String) :
    List Nat :=
  (s.take maxLength).map (fun w => u32 ((wtoi w).getD 0)) ++
    List.replicate (maxLength - s.length) 0

/-- The label_start_ix values produced from a given running counter. -/
def spanStarts : Nat → Corpus → List Nat
  | _, [] => []
  | counter, caps :: rest => u32 counter :: spanStarts (counter + caps.length) rest

/-- The label_end_ix values produced from a given running counter. -/
def spanEnds : Nat → Corpus → List Nat
  | _, [] => []
  | counter, caps :: rest =>
    u32 (counter + caps.length - 1) :: spanEnds (counter + caps.length) rest

/-- The main loop of encode_captions over the images, carrying the
running 1-indexed row counter: per image, assert it has captions,
encode its rows, record its span, and recurse. -/
def encodeLoop (wtoi : String → Option Nat) (maxLength : Nat) :
    Corpus → Nat → Except EncodeError (List (List Nat) × List Nat × List Nat × List Nat)
  | [], _ => .ok ([], [], [], [])
  | caps :: rest, counter =>
    if caps.length = 0 then .error .noCaptions
    else
      match optMap (encodeRow wtoi maxLength) caps with
      | none => .error .missingWord
      | some li =>
        match encodeLoop wtoi maxLength rest (counter + caps.length) with
        | .error e => .error e
        | .ok (ls, starts, ends, lens) =>
          .ok (li ++ ls, u32 counter :: starts,
               u32 (counter + caps.length - 1) :: ends,
               caps.map (fun s => u32 (min maxLength s.length)) ++ lens)

/-- encode_captions: run the loop from counter 1, then np.concatenate
(ValueError when there is no image), then the shape assert, then the
assert that every recorded length is positive. -/
def encode_captions (finals : Corpus) (maxLength : Nat) (wtoi : String → Option Nat) :
    Except EncodeError EncodeResult :=
  match encodeLoop wtoi maxLength finals 1 with
  | .error e => .error e
  | .ok (ls, starts, ends, lens) =>
    if finals = [] then .error .emptyConcat
    else if ls.length = (finals.map List.length).sum then
      if ∀ l ∈ lens, 0 < l then .ok ⟨ls, starts, ends, lens⟩
      else .error .zeroLength
    else .error .shapeMismatch

/-- One input record of the json collection. -/
structure RawImg where
  file_path : String
  captions : List String
deriving DecidableEq

/-- The recognized configuration options that feed the core pipeline. -/
structure Params where
  word_count_threshold : Nat
  max_length : Nat
  num_val : Nat
  num_test : Nat
deriving DecidableEq

/-- prepro_captions: the processed_tokens field of every image. -/
def prepro_captions (imgs : List RawImg) : Corpus :=
  imgs.map (fun im => im.captions.map tokenize)

/-- The outputs of one run of main that the claims speak about: the
post-shuffle record order, the vocabulary list (which determines both
id tables), the split labels and the encoded arrays. -/
structure PipelineOut where
  order : List RawImg
  vocab : List String
  splits : List String
  encoded : Except EncodeError EncodeResult

/-- main: shuffle (seed 123 makes the shuffle a fixed function of the
input list, passed here as the parameter sh), tokenize, build the
vocabulary and the id tables, assign splits, encode. -/
def run_pipeline (sh : List RawImg → List RawImg) (raw : List RawImg) (p : Params) :
    PipelineOut :=
  let imgs := sh raw
  let toks := prepro_captions imgs
  let vocabL := build_vocab toks p.word_count_threshold
  let finals := final_captions toks p.word_count_threshold
  ⟨imgs, vocabL, assign_splits imgs p.num_val p.num_test,
    encode_captions finals p.max_length (wtoiOf vocabL)⟩

example : tokenize "A Dog! " = ["a", "dog"] := by decide
example : tokenize "Two dogs  run." = ["two", "dogs", "run"] := by decide
example : build_vocab [[["a"], ["a"]]] 0 = ["a"] := by decide
example : build_vocab [[["a", "b"], ["a"]]] 1 = ["a", "UNK"] := by decide
example :
    encode_captions [[["a", "b"], ["a"]], [["b"]]] 3
      (wtoiOf ["a", "b"]) =
    .ok ⟨[[1, 2, 0], [1, 0, 0], [2, 0, 0]], [1, 3], [2, 3], [2, 1, 1]⟩ := by rfl

/-! Helper lemmas about the dict embedding. -/

theorem dictOf_isSome_iff (l : List (String × Nat)) (w : String) :
    (dictOf l w).isSome = true ↔ w ∈ l.map Prod.fst := by
  induction l with
  | nil => simp [dictOf]
  | cons p rest ih =>
    obtain ⟨k, v⟩ := p
    cases h : dictOf rest w with
    | some r =>
      rw [h] at ih
      simp only [Option.isSome_some, true_iff] at ih
      simp [dictOf, h, ih]
    | none =>
      rw [h] at ih
      simp only [Option.isSome_none, Bool.false_eq_true, false_iff] at ih
      by_cases hk : w = k
      · subst hk; simp [dictOf, h]
      · simp [dictOf, h, hk, ih]

theorem dictOf_mem (l : List (String × Nat)) (w : String) (v : Nat)
    (h : dictOf l w = some v) : (w, v) ∈ l := by
  induction l with
  | nil => simp [dictOf] at h
  | cons p rest ih =>
    obtain ⟨k, v0⟩ := p
    cases hr : dictOf rest w with
    | some r =>
      simp only [dictOf, hr, Option.some.injEq] at h
      subst h
      exact List.mem_cons_of_mem _ (ih hr)
    | none =>
      simp only [dictOf, hr] at h
      by_cases hk : w = k
      · rw [if_pos hk] at h
        simp only [Option.some.injEq] at h
        subst h; subst hk
        exact List.mem_cons_self _ _
      · rw [if_neg hk] at h
        exact absurd h (by simp)

theorem enumPairs_mem (vs : List String) : ∀ (i : Nat) (w : String) (v : Nat),
    (w, v) ∈ enumPairs i vs → i + 1 ≤ v ∧ v ≤ i + vs.length := by
  induction vs with
  | nil => intro i w v h; simp [enumPairs] at h
  | cons x rest ih =>
    intro i w v h
    simp only [enumPairs, List.mem_cons] at h
    rcases h with h | h
    · cases h
      simp only [List.length_cons]
      omega
    · have := ih (i + 1) w v h
      simp only [List.length_cons]
      omega

theorem enumPairs_map_fst (vs : List String) : ∀ i, (enumPairs i vs).map Prod.fst = vs := by
  induction vs with
  | nil => intro i; rfl
  | cons x rest ih => intro i; simp [enumPairs, ih]

theorem wtoiOf_isSome_iff (vs : List String) (w : String) :
    (wtoiOf vs w).isSome = true ↔ w ∈ vs := by
  rw [wtoiOf, dictOf_isSome_iff, enumPairs_map_fst]

theorem wtoiOf_bounds (vs : List String) (w : String) (v : Nat)
    (h : wtoiOf vs w = some v) : 1 ≤ v ∧ v ≤ vs.length := by
  have := enumPairs_mem vs 0 w v (dictOf_mem _ _ _ h)
  omega

/-! Helper lemmas about the fallible map. -/

theorem optMap_cons_some (f : α → Option β) (a : α) (rest : List α) (ys : List β)
    (h : optMap f (a :: rest) = some ys) :
    ∃ b bs, f a = some b ∧ optMap f rest = some bs ∧ ys = b :: bs := by
  cases hfa : f a with
  | none => simp only [optMap, hfa] at h; exact Option.noConfusion h
  | some b =>
    cases hrest : optMap f rest with
    | none => simp only [optMap, hfa, hrest] at h; exact Option.noConfusion h
    | some bs =>
      simp only [optMap, hfa, hrest, Option.some.injEq] at h
      exact ⟨b, bs, rfl, rfl, h.symm⟩

theorem optMap_some_length (f : α → Option β) (l : List α) (ys : List β)
    (h : optMap f l = some ys) : ys.length = l.length := by
  induction l generalizing ys with
  | nil =>
    simp only [optMap, Option.some.injEq] at h
    simp [← h]
  | cons a rest ih =>
    obtain ⟨b, bs, _, hrest, hys⟩ := optMap_cons_some f a rest ys h
    subst hys
    simp [ih bs hrest]

theorem optMap_some_isSome (f : α → Option β) (l : List α) (ys : List β)
    (h : optMap f l = some ys) : ∀ x ∈ l, (f x).isSome := by
  induction l generalizing ys with
  | nil => intro x hx; simp at hx
  | cons a rest ih =>
    obtain ⟨b, bs, hfa, hrest, _⟩ := optMap_cons_some f a rest ys h
    intro x hx
    rcases List.mem_cons.mp hx with hx | hx
    · subst hx; simp [hfa]
    · exact ih bs hrest x hx

theorem optMap_some_eq_map (f : α → Option β) (d : β) (l : List α) (ys : List β)
    (h : optMap f l = some ys) : ys = l.map (fun x => (f x).getD d) := by
  induction l generalizing ys with
  | nil =>
    simp only [optMap, Option.some.injEq] at h
    simp [← h]
  | cons a rest ih =>
    obtain ⟨b, bs, hfa, hrest, hys⟩ := optMap_cons_some f a rest ys h
    subst hys
    simp [hfa, ih bs hrest]

theorem optMap_isSome_of (f : α → Option β) (l : List α)
    (h : ∀ x ∈ l, (f x).isSome) : ∃ ys, optMap f l = some ys := by
  induction l with
  | nil => exact ⟨[], rfl⟩
  | cons a rest ih =>
    obtain ⟨b, hb⟩ := Option.isSome_iff_exists.mp (h a (List.mem_cons_self a rest))
    obtain ⟨bs, hbs⟩ := ih (fun x hx => h x (List.mem_cons_of_mem a hx))
    exact ⟨b :: bs, by simp [optMap, hb, hbs]⟩

/-! Helper lemmas about row encoding. -/

theorem pureRow_length (wtoi : String → Option Nat) (maxLength : Nat) (s : List String) :
    (pureRow wtoi maxLength s).length = maxLength := by
  simp only [pureRow, List.length_append, List.length_map, List.length_take,
    List.length_replicate]
  omega

theorem encodeRow_some (wtoi : String → Option Nat) (maxLength : Nat) (s : List String)
    (row : List Nat) (h : encodeRow wtoi maxLength s = some row) :
    row = pureRow wtoi maxLength s ∧ ∀ w ∈ s.take maxLength, (wtoi w).isSome := by
  cases hm : optMap wtoi (s.take maxLength) with
  | none => simp only [encodeRow, hm] at h; exact Option.noConfusion h
  | some ids =>
    simp only [encodeRow, hm, Option.some.injEq] at h
    refine ⟨?_, optMap_some_isSome _ _ _ hm⟩
    rw [← h, pureRow, optMap_some_eq_map wtoi 0 _ _ hm, List.map_map]
    rfl

theorem encodeRow_isSome_of (wtoi : String → Option Nat) (maxLength : Nat) (s : List String)
    (h : ∀ w ∈ s.take maxLength, (wtoi w).isSome) :
    (encodeRow wtoi maxLength s).isSome := by
  obtain ⟨ids, hids⟩ := optMap_isSome_of wtoi _ h
  simp [encodeRow, hids]

/-! Helper lemmas about prefix sums of the caption counts. -/

theorem takeSum_le (l : List Nat) (k : Nat) : (l.take k).sum ≤ l.sum := by
  conv_rhs => rw [← List.take_append_drop k l]
  rw [List.sum_append]
  exact Nat.le_add_right _ _

theorem takeSum_succ (l : List Nat) (k : Nat) (h : k < l.length) :
    (l.take (k + 1)).sum = (l.take k).sum + l.getD k 0 := by
  rw [List.sum_take_succ _ _ h, List.getD_eq_getElem _ _ h]

theorem getD_map_of_lt (f : α → β) (l : List α) (i : Nat) (h : i < l.length)
    (d : α) (d2 : β) : (l.map f).getD i d2 = f (l.getD i d) := by
  rw [List.getD_eq_getElem _ _ (by simpa using h), List.getD_eq_getElem _ _ h,
    List.getElem_map]

theorem takeSum_add_lt (ll : List (List α)) (i j : Nat) (hi : i < ll.length)
    (hj : j < (ll.getD i []).length) :
    ((ll.map List.length).take i).sum + j < (ll.map List.length).sum := by
  have h1 := takeSum_succ (ll.map List.length) i (by simpa using hi)
  have h2 : (ll.map List.length).getD i 0 = (ll.getD i []).length :=
    getD_map_of_lt List.length ll i hi [] 0
  have h3 := takeSum_le (ll.map List.length) (i + 1)
  omega

theorem flatten_getD (ll : List (List α)) :
    ∀ (i j : Nat), i < ll.length → j < (ll.getD i []).length →
    ∀ (d : α),
      ll.flatten.getD (((ll.map List.length).take i).sum + j) d = (ll.getD i []).getD j d := by
  induction ll with
  | nil => intro i j hi; simp at hi
  | cons hd tl ih =>
    intro i j hi hj d
    cases i with
    | zero =>
      simp only [List.getD_cons_zero] at hj ⊢
      simp only [List.take_zero, List.sum_nil, Nat.zero_add, List.flatten_cons]
      rw [List.getD_eq_getElem _ _ (by simp; omega),
        List.getElem_append_left (by simpa using hj), ← List.getD_eq_getElem _ _ hj]
    | succ i =>
      simp only [List.getD_cons_succ] at hj ⊢
      simp only [List.map_cons, List.take_succ_cons, List.sum_cons, List.flatten_cons]
      have hi' : i < tl.length := by simpa using hi
      have hidx : hd.length + (((tl.map List.length).take i).sum + j) =
          hd.length + ((tl.map List.length).take i).sum + j := by omega
      have hlt := takeSum_add_lt tl i j hi' hj
      rw [← hidx,
        List.getD_eq_getElem _ _
          (by simp only [List.length_append, List.length_flatten]; omega),
        List.getElem_append_right (Nat.le_add_right _ _)]
      simp only [Nat.add_sub_cancel_left]
      rw [← List.getD_eq_getElem _ _ (by simpa using hlt)]
      exact ih i j hi' hj d

/-! Helper lemmas about the span pointer lists. -/

theorem spanStarts_length (finals : Corpus) :
    ∀ c, (spanStarts c finals).length = finals.length := by
  induction finals with
  | nil => intro c; rfl
  | cons caps rest ih => intro c; simp [spanStarts, ih]

theorem spanEnds_length (finals : Corpus) :
    ∀ c, (spanEnds c finals).length = finals.length := by
  induction finals with
  | nil => intro c; rfl
  | cons caps rest ih => intro c; simp [spanEnds, ih]

theorem spanStarts_getD (finals : Corpus) :
    ∀ (c i : Nat), i < finals.length →
      (spanStarts c finals).getD i 0 =
        u32 (c + ((finals.map List.length).take i).sum) := by
  induction finals with
  | nil => intro c i h; simp at h
  | cons caps rest ih =>
    intro c i h
    cases i with
    | zero => simp [spanStarts]
    | succ i =>
      simp only [spanStarts, List.getD_cons_succ, List.map_cons, List.take_succ_cons,
        List.sum_cons]
      rw [ih (c + caps.length) i (by simpa using h)]
      congr 1
      omega

theorem spanEnds_getD (finals : Corpus) :
    ∀ (c i : Nat), i < finals.length →
      (spanEnds c finals).getD i 0 =
        u32 (c + ((finals.map List.length).take (i + 1)).sum - 1) := by
  induction finals with
  | nil => intro c i h; simp at h
  | cons caps rest ih =>
    intro c i h
    cases i with
    | zero =>
      simp only [spanEnds, List.getD_cons_zero, List.map_cons, List.take_succ_cons,
        List.take_zero, List.sum_cons, List.sum_nil]
      congr 1
    | succ i =>
      simp only [spanEnds, List.getD_cons_succ, List.map_cons, List.take_succ_cons,
        List.sum_cons]
      rw [ih (c + caps.length) i (by simpa using h)]
      congr 1
      omega

/-! The success characterization of the encoding loop. -/

theorem encodeLoop_ok (wtoi : String → Option Nat) (maxLength : Nat) :
    ∀ (finals : Corpus) (counter : Nat)
      (out : List (List Nat) × List Nat × List Nat × List Nat),
      encodeLoop wtoi maxLength finals counter = .ok out →
      out.1 = finals.flatten.map (pureRow wtoi maxLength) ∧
      out.2.1 = spanStarts counter finals ∧
      out.2.2.1 = spanEnds counter finals ∧
      out.2.2.2 = finals.flatten.map (fun s => u32 (min maxLength s.length)) ∧
      (∀ caps ∈ finals, caps ≠ []) ∧
      (∀ s ∈ finals.flatten, ∀ w ∈ s.take maxLength, (wtoi w).isSome) := by
  intro finals
  induction finals with
  | nil =>
    intro counter out h
    simp only [encodeLoop, Except.ok.injEq] at h
    subst h
    refine ⟨rfl, rfl, rfl, rfl, ?_, ?_⟩ <;> intro x hx <;> simp at hx
  | cons caps rest ih =>
    intro counter out h
    by_cases hn : caps.length = 0
    · simp only [encodeLoop, if_pos hn] at h
      exact Except.noConfusion h
    · simp only [encodeLoop, if_neg hn] at h
      cases hli : optMap (encodeRow wtoi maxLength) caps with
      | none => rw [hli] at h; exact Except.noConfusion h
      | some li =>
        rw [hli] at h
        cases hrec : encodeLoop wtoi maxLength rest (counter + caps.length) with
        | error e => rw [hrec] at h; exact Except.noConfusion h
        | ok x =>
          obtain ⟨ls, starts, ends, lens⟩ := x
          rw [hrec] at h
          simp only [Except.ok.injEq] at h
          obtain ⟨r1, r2, r3, r4, r5, r6⟩ :=
            ih (counter + caps.length) (ls, starts, ends, lens) hrec
          have hrows : ∀ s ∈ caps, encodeRow wtoi maxLength s = some (pureRow wtoi maxLength s) := by
            intro s hs
            have hsome := optMap_some_isSome _ _ _ hli s hs
            obtain ⟨row, hrow⟩ := Option.isSome_iff_exists.mp hsome
            rw [hrow]
            exact congrArg some (encodeRow_some wtoi maxLength s row hrow).1
          have hlirows : li = caps.map (pureRow wtoi maxLength) := by
            rw [optMap_some_eq_map (encodeRow wtoi maxLength) [] caps li hli]
            exact List.map_congr_left (fun s hs => by rw [hrows s hs]; rfl)
          subst h
          dsimp only at r1 r2 r3 r4
          subst r1; subst r2; subst r3; subst r4
          refine ⟨?_, rfl, rfl, ?_, ?_, ?_⟩
          · rw [hlirows, List.flatten_cons, List.map_append]
          · rw [List.flatten_cons, List.map_append]
          · intro c hc
            rcases List.mem_cons.mp hc with hc | hc
            · subst hc; exact fun he => hn (by simp [he])
            · exact r5 c hc
          · intro s hs w hw
            rcases (by simpa using hs : s ∈ caps ∨ ∃ l ∈ rest, s ∈ l) with hs2 | ⟨l, hl, hsl⟩
            · exact (encodeRow_some wtoi maxLength s _ (hrows s hs2)).2 w hw
            · exact r6 s (List.mem_flatten.mpr ⟨l, hl, hsl⟩) w hw

/-! The success characterization of encode_captions. -/

theorem encode_captions_ok (finals : Corpus) (maxLength : Nat)
    (wtoi : String → Option Nat) (r : EncodeResult)
    (h : encode_captions finals maxLength wtoi = .ok r) :
    r.L = finals.flatten.map (pureRow wtoi maxLength) ∧
    r.label_start_ix = spanStarts 1 finals ∧
    r.label_end_ix = spanEnds 1 finals ∧
    r.label_length = finals.flatten.map (fun s => u32 (min maxLength s.length)) ∧
    (∀ caps ∈ finals, caps ≠ []) ∧
    (∀ s ∈ finals.flatten, ∀ w ∈ s.take maxLength, (wtoi w).isSome) ∧
    (∀ l ∈ r.label_length, 0 < l) ∧
    finals ≠ [] := by
  unfold encode_captions at h
  cases hloop : encodeLoop wtoi maxLength finals 1 with
  | error e => rw [hloop] at h; exact Except.noConfusion h
  | ok x =>
    obtain ⟨ls, starts, ends, lens⟩ := x
    rw [hloop] at h
    dsimp only at h
    by_cases hne : finals = []
    · rw [if_pos hne] at h; exact Except.noConfusion h
    · rw [if_neg hne] at h
      by_cases hsh : ls.length = (finals.map List.length).sum
      · rw [if_pos hsh] at h
        by_cases hpos : ∀ l ∈ lens, 0 < l
        · rw [if_pos hpos] at h
          simp only [Except.ok.injEq] at h
          subst h
          obtain ⟨r1, r2, r3, r4, r5, r6⟩ :=
            encodeLoop_ok wtoi maxLength finals 1 (ls, starts, ends, lens) hloop
          dsimp only at r1 r2 r3 r4
          exact ⟨r1, r2, r3, r4, r5, r6, hpos, hne⟩
        · rw [if_neg hpos] at h; exact Except.noConfusion h
      · rw [if_neg hsh] at h; exact Except.noConfusion h

theorem encodeLoop_ne_missingWord (wtoi : String → Option Nat) (maxLength : Nat) :
    ∀ (finals : Corpus) (counter : Nat),
      (∀ s ∈ finals.flatten, ∀ w ∈ s.take maxLength, (wtoi w).isSome) →
      encodeLoop wtoi maxLength finals counter ≠ .error .missingWord := by
  intro finals
  induction finals with
  | nil => intro counter _ h; exact Except.noConfusion h
  | cons caps rest ih =>
    intro counter hs h
    by_cases hn : caps.length = 0
    · simp only [encodeLoop, if_pos hn] at h
      exact EncodeError.noConfusion (Except.error.inj h)
    · have hall : ∀ s ∈ caps, (encodeRow wtoi maxLength s).isSome := by
        intro s hsm
        exact encodeRow_isSome_of wtoi maxLength s
          (fun w hw => hs s (List.mem_flatten.mpr ⟨caps, List.mem_cons_self _ _, hsm⟩) w hw)
      obtain ⟨li, hli⟩ := optMap_isSome_of _ _ hall
      simp only [encodeLoop, if_neg hn, hli] at h
      cases hrec : encodeLoop wtoi maxLength rest (counter + caps.length) with
      | error e =>
        rw [hrec] at h
        have he : e = .missingWord := Except.error.inj h
        exact ih (counter + caps.length)
          (fun s hsm w hw =>
            hs s (by rw [List.flatten_cons]; exact List.mem_append_right _ hsm) w hw)
          (he ▸ hrec)
      | ok x =>
        obtain ⟨ls, starts, ends, lens⟩ := x
        rw [hrec] at h
        exact Except.noConfusion h

theorem encode_captions_ne_missingWord (finals : Corpus) (maxLength : Nat)
    (wtoi : String → Option Nat)
    (hall : ∀ s ∈ finals.flatten, ∀ w ∈ s.take maxLength, (wtoi w).isSome) :
    encode_captions finals maxLength wtoi ≠ .error .missingWord := by
  intro h
  unfold encode_captions at h
  cases hloop : encodeLoop wtoi maxLength finals 1 with
  | error e =>
    rw [hloop] at h
    have he : e = .missingWord := Except.error.inj h
    exact encodeLoop_ne_missingWord wtoi maxLength finals 1 hall (he ▸ hloop)
  | ok x =>
    obtain ⟨ls, starts, ends, lens⟩ := x
    rw [hloop] at h
    dsimp only at h
    by_cases hne : finals = []
    · rw [if_pos hne] at h
      exact EncodeError.noConfusion (Except.error.inj h)
    · rw [if_neg hne] at h
      by_cases hsh : ls.length = (finals.map List.length).sum
      · rw [if_pos hsh] at h
        by_cases hpos : ∀ l ∈ lens, 0 < l
        · rw [if_pos hpos] at h; exact Except.noConfusion h
        · rw [if_neg hpos] at h
          exact EncodeError.noConfusion (Except.error.inj h)
      · rw [if_neg hsh] at h
        exact EncodeError.noConfusion (Except.error.inj h)

/-! Pointwise description of an encoded row. -/

theorem getD_mem_take (s : List String) (maxLength k : Nat)
    (hk : k < min maxLength s.length) : s.getD k "" ∈ s.take maxLength := by
  have hks : k < s.length := lt_of_lt_of_le hk (Nat.min_le_right _ _)
  have hktake : k < (s.take maxLength).length := by
    simp only [List.length_take]; omega
  have heq : (s.take maxLength).getD k "" = s.getD k "" := by
    rw [List.getD_eq_getElem _ _ hktake, List.getD_eq_getElem _ _ hks]
    exact List.getElem_take _
  rw [← heq, List.getD_eq_getElem _ _ hktake]
  exact List.getElem_mem _

theorem pureRow_getD_lt (wtoi : String → Option Nat) (maxLength : Nat)
    (s : List String) (k : Nat) (hk : k < min maxLength s.length) :
    (pureRow wtoi maxLength s).getD k 0 = u32 ((wtoi (s.getD k "")).getD 0) := by
  have hks : k < s.length := lt_of_lt_of_le hk (Nat.min_le_right _ _)
  have hktake : k < (s.take maxLength).length := by
    simp only [List.length_take]; omega
  have hkmap : k < ((s.take maxLength).map (fun w => u32 ((wtoi w).getD 0))).length := by
    simpa using hktake
  have hkrow : k < (pureRow wtoi maxLength s).length := by
    rw [pureRow_length]
    omega
  rw [pureRow] at hkrow ⊢
  rw [List.getD_eq_getElem _ _ hkrow, List.getElem_append_left hkmap, List.getElem_map]
  have heq : (s.take maxLength).getD k "" = s.getD k "" := by
    rw [List.getD_eq_getElem _ _ hktake, List.getD_eq_getElem _ _ hks]
    exact List.getElem_take _
  rw [← heq, List.getD_eq_getElem _ _ hktake]

theorem pureRow_getD_ge (wtoi : String → Option Nat) (maxLength : Nat)
    (s : List String) (k : Nat) (hk : min maxLength s.length ≤ k) :
    (pureRow wtoi maxLength s).getD k 0 = 0 := by
  by_cases hkr : k < (pureRow wtoi maxLength s).length
  · have hkm : k < maxLength := by
      have := pureRow_length wtoi maxLength s
      omega
    rw [pureRow] at hkr ⊢
    rw [List.getD_eq_getElem _ _ hkr,
      List.getElem_append_right (by simp only [List.length_map, List.length_take]; omega),
      List.getElem_replicate]
  · rw [List.getD_eq_default _ _ (Nat.le_of_not_lt hkr)]

/-- C6: for num_val and num_test with num_val + num_test at most the
corpus size, assign_splits labels exactly the first num_val records val,
the next num_test records test and the rest train, gives every record
exactly one label, and the three partition sizes add up to the corpus
size. -/
theorem claim_assign_splits_partition (imgs : List α) (nv nt : Nat)
    (h : nv + nt ≤ imgs.length) :
    assign_splits imgs nv nt =
      List.replicate nv "val" ++
        (List.replicate nt "test" ++
          List.replicate (imgs.length - nv - nt) "train") ∧
    (assign_splits imgs nv nt).length = imgs.length ∧
    (assign_splits imgs nv nt).count "val" = nv ∧
    (assign_splits imgs nv nt).count "test" = nt ∧
    (assign_splits imgs nv nt).count "train" = imgs.length - nv - nt ∧
    nv + nt + (imgs.length - nv - nt) = imgs.length := by
  have key : assign_splits imgs nv nt =
      List.replicate nv "val" ++
        (List.replicate nt "test" ++
          List.replicate (imgs.length - nv - nt) "train") := by
    apply List.ext_getElem
    · simp only [assign_splits, List.length_map, List.length_range, List.length_append,
        List.length_replicate]
      omega
    · intro i h1 h2
      simp only [assign_splits, List.getElem_map, List.getElem_range]
      by_cases hv : i < nv
      · rw [if_pos hv,
          List.getElem_append_left (by simpa using hv), List.getElem_replicate]
      · rw [if_neg hv,
          List.getElem_append_right (by simpa using Nat.le_of_not_lt hv)]
        by_cases ht : i < nv + nt
        · rw [if_pos ht,
            List.getElem_append_left (by simp only [List.length_replicate]; omega),
            List.getElem_replicate]
        · rw [if_neg ht,
            List.getElem_append_right (by simp only [List.length_replicate]; omega),
            List.getElem_replicate]
  refine ⟨key, by simp [assign_splits], ?_, ?_, ?_, by omega⟩ <;>
    rw [key] <;>
    simp [List.count_append, List.count_replicate]

/-- C6 witness at a concrete four-record corpus. -/
theorem claim_assign_splits_partition_witness :
    assign_splits ([10, 20, 30, 40] : List Nat) 1 2 =
      List.replicate 1 "val" ++
        (List.replicate 2 "test" ++ List.replicate 1 "train") :=
  (claim_assign_splits_partition ([10, 20, 30, 40] : List Nat) 1 2 (by decide)).1

/-- C7 counterexample: with one record and num_val + num_test = 3 the
pipeline raises no configuration error: assign_splits silently marks the
single record val, no record is marked train, and the run still
produces encoded output. -/
theorem claim_split_overflow_counterexample :
    assign_splits [RawImg.mk "x.jpg" ["a dog"]] 2 1 = ["val"] ∧
    "train" ∉ assign_splits [RawImg.mk "x.jpg" ["a dog"]] 2 1 ∧
    (run_pipeline id [RawImg.mk "x.jpg" ["a dog"]] ⟨0, 2, 2, 1⟩).splits = ["val"] ∧
    (run_pipeline id [RawImg.mk "x.jpg" ["a dog"]] ⟨0, 2, 2, 1⟩).encoded =
      .ok ⟨[[1, 2]], [1], [1], [2]⟩ := by
  refine ⟨rfl, by decide, rfl, rfl⟩

/-- C7 amended: when num_val + num_test exceeds the corpus size,
assign_splits performs no validation and silently labels every record
val or test positionally, so the train partition is empty; no error
path exists. -/
theorem claim_split_overflow_silent (imgs : List α) (nv nt : Nat)
    (h : imgs.length < nv + nt) :
    (assign_splits imgs nv nt).length = imgs.length ∧
    "train" ∉ assign_splits imgs nv nt ∧
    ∀ s ∈ assign_splits imgs nv nt, s = "val" ∨ s = "test" := by
  have hall : ∀ s ∈ assign_splits imgs nv nt, s = "val" ∨ s = "test" := by
    intro s hs
    simp only [assign_splits, List.mem_map, List.mem_range] at hs
    obtain ⟨i, hi, rfl⟩ := hs
    by_cases hv : i < nv
    · rw [if_pos hv]; exact Or.inl rfl
    · rw [if_neg hv, if_pos (by omega)]; exact Or.inr rfl
  refine ⟨by simp [assign_splits], ?_, hall⟩
  intro hmem
  rcases hall _ hmem with h1 | h1 <;> exact absurd h1 (by decide)

/-- C7 amended witness at a concrete overfull configuration. -/
theorem claim_split_overflow_silent_witness :
    "train" ∉ assign_splits ([10, 20] : List Nat) 2 1 :=
  (claim_split_overflow_silent ([10, 20] : List Nat) 2 1 (by decide)).2.1

/-! Helper lemmas about the vocabulary. -/

theorem mem_allTokens_of (toks : Corpus) (im : List (List String)) (txt : List String)
    (w : String) (him : im ∈ toks) (htxt : txt ∈ im) (hw : w ∈ txt) :
    w ∈ allTokens toks := by
  unfold allTokens
  exact List.mem_flatten.mpr
    ⟨im.flatten, List.mem_map_of_mem _ him, List.mem_flatten.mpr ⟨txt, htxt, hw⟩⟩

theorem badCount_pos_iff (toks : Corpus) (thr : Nat) :
    0 < badCount toks thr ↔ ∃ u ∈ allTokens toks, wordCount toks u ≤ thr := by
  constructor
  · intro h
    by_contra hn
    push_neg at hn
    have hempty : badWords toks thr = [] := by
      rw [badWords, List.filter_eq_nil_iff]
      intro u hu
      simp only [decide_eq_true_eq, Nat.not_le]
      exact hn u (List.mem_dedup.mp hu)
    rw [badCount, hempty] at h
    simp at h
  · rintro ⟨u, hu, hle⟩
    have humem : u ∈ badWords toks thr :=
      List.mem_filter.mpr ⟨List.mem_dedup.mpr hu, by simpa using hle⟩
    have hsum : wordCount toks u ≤ badCount toks thr :=
      List.single_le_sum (fun x _ => Nat.zero_le x) _ (List.mem_map_of_mem _ humem)
    have hpos : 0 < wordCount toks u := List.count_pos_iff.mpr hu
    omega

theorem build_vocab_mem_iff (toks : Corpus) (thr : Nat) (w : String) :
    w ∈ build_vocab toks thr ↔
      thr < wordCount toks w ∨
        (w = "UNK" ∧ ∃ u ∈ allTokens toks, wordCount toks u ≤ thr) := by
  unfold build_vocab
  rw [List.mem_append]
  constructor
  · rintro (hk | hu)
    · exact Or.inl (by simpa using (List.mem_filter.mp hk).2)
    · right
      by_cases hb : 0 < badCount toks thr
      · rw [if_pos hb] at hu
        simp only [List.mem_singleton] at hu
        exact ⟨hu, (badCount_pos_iff toks thr).mp hb⟩
      · rw [if_neg hb] at hu
        simp at hu
  · rintro (hk | ⟨rfl, hex⟩)
    · left
      refine List.mem_filter.mpr ⟨List.mem_dedup.mpr ?_, by simpa using hk⟩
      exact List.count_pos_iff.mp (Nat.lt_of_le_of_lt (Nat.zero_le _) hk)
    · right
      rw [if_pos ((badCount_pos_iff toks thr).mpr hex)]
      exact List.mem_singleton.mpr rfl

theorem build_vocab_sentinel_iff (toks : Corpus) (thr : Nat) :
    build_vocab toks thr =
      vocabKept toks thr ++
        (if ∃ u ∈ allTokens toks, wordCount toks u ≤ thr then ["UNK"] else []) := by
  unfold build_vocab
  congr 1
  by_cases hb : 0 < badCount toks thr
  · rw [if_pos hb, if_pos ((badCount_pos_iff toks thr).mp hb)]
  · rw [if_neg hb, if_neg (fun hex => hb ((badCount_pos_iff toks thr).mpr hex))]

theorem dropped_not_in_finals (toks : Corpus) (thr : Nat) (w : String)
    (hle : wordCount toks w ≤ thr) (hne : w ≠ "UNK") :
    ∀ im ∈ final_captions toks thr, ∀ cap ∈ im, w ∉ cap := by
  intro im him cap hcap hwcap
  simp only [final_captions, List.mem_map] at him
  obtain ⟨im0, _, rfl⟩ := him
  simp only [List.mem_map] at hcap
  obtain ⟨txt, _, rfl⟩ := hcap
  simp only [finalCaption, List.mem_map] at hwcap
  obtain ⟨w0, _, hw⟩ := hwcap
  by_cases hk : thr < wordCount toks w0
  · rw [if_pos hk] at hw
    subst hw
    omega
  · rw [if_neg hk] at hw
    exact hne hw.symm

/-- C1: the vocabulary returned by build_vocab holds exactly the words
whose corpus count strictly exceeds the threshold; the UNK sentinel is
appended exactly when some occurring word has count at most the
threshold; and a dropped word never survives into any final caption. -/
theorem claim_vocab_threshold (toks : Corpus) (thr : Nat) :
    (∀ w, w ∈ build_vocab toks thr ↔
        thr < wordCount toks w ∨
          (w = "UNK" ∧ ∃ u ∈ allTokens toks, wordCount toks u ≤ thr)) ∧
    build_vocab toks thr =
      vocabKept toks thr ++
        (if ∃ u ∈ allTokens toks, wordCount toks u ≤ thr then ["UNK"] else []) ∧
    (∀ w, wordCount toks w ≤ thr → w ≠ "UNK" →
      ∀ im ∈ final_captions toks thr, ∀ cap ∈ im, w ∉ cap) :=
  ⟨fun w => build_vocab_mem_iff toks thr w,
   build_vocab_sentinel_iff toks thr,
   fun w hle hne => dropped_not_in_finals toks thr w hle hne⟩

/-- C1 witness: with threshold 1 over a corpus where a occurs twice and
b once, a is kept, the sentinel is added, and b is gone. -/
theorem claim_vocab_threshold_witness :
    "a" ∈ build_vocab [[["a", "a"], ["b"]]] 1 ∧
    "UNK" ∈ build_vocab [[["a", "a"], ["b"]]] 1 ∧
    "b" ∉ build_vocab [[["a", "a"], ["b"]]] 1 := by
  refine ⟨?_, ?_, ?_⟩
  · exact ((claim_vocab_threshold [[["a", "a"], ["b"]]] 1).1 "a").mpr (Or.inl (by decide))
  · exact ((claim_vocab_threshold [[["a", "a"], ["b"]]] 1).1 "UNK").mpr
      (Or.inr ⟨rfl, ⟨"b", by decide, by decide⟩⟩)
  · intro hmem
    rcases ((claim_vocab_threshold [[["a", "a"], ["b"]]] 1).1 "b").mp hmem with h | h
    · exact absurd h (by decide)
    · exact absurd h.1 (by decide)

/-- C4: every final caption has exactly the length of its tokenized
input and holds, position by position, the original token when its
count exceeds the threshold and the sentinel otherwise. -/
theorem claim_final_caption_positionwise (toks : Corpus) (thr : Nat) (i j : Nat)
    (hi : i < toks.length) (hj : j < (toks.getD i []).length) :
    (final_captions toks thr).length = toks.length ∧
    ((final_captions toks thr).getD i []).length = (toks.getD i []).length ∧
    (((final_captions toks thr).getD i []).getD j []).length =
      ((toks.getD i []).getD j []).length ∧
    ∀ k, k < ((toks.getD i []).getD j []).length →
      (((final_captions toks thr).getD i []).getD j []).getD k "" =
        (if thr < wordCount toks (((toks.getD i []).getD j []).getD k "") then
          ((toks.getD i []).getD j []).getD k ""
        else "UNK") := by
  have h1 : (final_captions toks thr).getD i [] =
      (toks.getD i []).map (fun txt => finalCaption toks thr txt) :=
    getD_map_of_lt _ toks i hi []  _
  have h2 : ((toks.getD i []).map (fun txt => finalCaption toks thr txt)).getD j [] =
      finalCaption toks thr ((toks.getD i []).getD j []) :=
    getD_map_of_lt _ _ j hj [] _
  refine ⟨by simp [final_captions], ?_, ?_, ?_⟩
  · rw [h1, List.length_map]
  · rw [h1, h2, finalCaption, List.length_map]
  · intro k hk
    rw [h1, h2, finalCaption,
      getD_map_of_lt _ _ k hk "" _]

/-- C4 witness: in a two-word caption with threshold 1, the frequent
word stays at position 0 and the rare word becomes UNK at position 1. -/
theorem claim_final_caption_positionwise_witness :
    (((final_captions [[["a", "b"], ["a"]]] 1).getD 0 []).getD 0 []).getD 1 "" = "UNK" := by
  have h := claim_final_caption_positionwise [[["a", "b"], ["a"]]] 1 0 0
    (by decide) (by decide)
  rw [h.2.2.2 1 (by decide)]
  decide

/-- Every token of every final caption is a member of the vocabulary
built from the same corpus. -/
theorem finals_tokens_mem_vocab (toks : Corpus) (thr : Nat) (w : String)
    (hw : w ∈ (final_captions toks thr).flatten.flatten) :
    w ∈ build_vocab toks thr := by
  obtain ⟨cap, hcap, hwcap⟩ := List.mem_flatten.mp hw
  obtain ⟨im, him, hcapim⟩ := List.mem_flatten.mp hcap
  simp only [final_captions, List.mem_map] at him
  obtain ⟨im0, him0, rfl⟩ := him
  obtain ⟨txt, htxt, rfl⟩ := List.mem_map.mp hcapim
  simp only [finalCaption, List.mem_map] at hwcap
  obtain ⟨w0, hw0, rfl⟩ := hwcap
  by_cases hk : thr < wordCount toks w0
  · rw [if_pos hk]
    exact (build_vocab_mem_iff toks thr w0).mpr (Or.inl hk)
  · rw [if_neg hk]
    exact (build_vocab_mem_iff toks thr "UNK").mpr
      (Or.inr ⟨rfl, ⟨w0, mem_allTokens_of toks im0 txt w0 him0 htxt hw0, by omega⟩⟩)

/-- C9: every token of every final caption is a key of the word-to-id
table built from the vocabulary of the same corpus, so the lookup in
encode_captions never raises: the run can never end in the KeyError
outcome. -/
theorem claim_wtoi_total (toks : Corpus) (thr maxLength : Nat) :
    (∀ cap ∈ (final_captions toks thr).flatten, ∀ w ∈ cap,
        w ∈ build_vocab toks thr ∧
          (wtoiOf (build_vocab toks thr) w).isSome) ∧
    encode_captions (final_captions toks thr) maxLength
        (wtoiOf (build_vocab toks thr)) ≠ .error .missingWord := by
  have hmem : ∀ cap ∈ (final_captions toks thr).flatten, ∀ w ∈ cap,
      w ∈ build_vocab toks thr := by
    intro cap hcap w hw
    exact finals_tokens_mem_vocab toks thr w (List.mem_flatten.mpr ⟨cap, hcap, hw⟩)
  refine ⟨fun cap hcap w hw =>
    ⟨hmem cap hcap w hw, (wtoiOf_isSome_iff _ _).mpr (hmem cap hcap w hw)⟩, ?_⟩
  apply encode_captions_ne_missingWord
  intro s hs w hw
  exact (wtoiOf_isSome_iff _ _).mpr (hmem s hs w (List.mem_of_mem_take hw))

/-- C9 witness: the sentinel produced in a final caption is a key of
the table. -/
theorem claim_wtoi_total_witness :
    "UNK" ∈ build_vocab [[["a", "a"], ["b"]]] 1 ∧
    (wtoiOf (build_vocab [[["a", "a"], ["b"]]] 1) "UNK").isSome :=
  (claim_wtoi_total [[["a", "a"], ["b"]]] 1 5).1 ["UNK"] (by decide) "UNK" (by decide)

/-- C5: encode_captions never succeeds when some record has no caption
or some caption has no token, and in every successful run every record
has a caption and every recorded length is positive. -/
theorem claim_encode_failures (finals : Corpus) (maxLength : Nat)
    (wtoi : String → Option Nat) :
    ((∃ caps ∈ finals, caps = []) →
      ∀ r, encode_captions finals maxLength wtoi ≠ .ok r) ∧
    ((∃ caps ∈ finals, ∃ s ∈ caps, s = []) →
      ∀ r, encode_captions finals maxLength wtoi ≠ .ok r) ∧
    (∀ r, encode_captions finals maxLength wtoi = .ok r →
      (∀ caps ∈ finals, caps ≠ []) ∧ ∀ l ∈ r.label_length, 0 < l) := by
  refine ⟨?_, ?_, ?_⟩
  · rintro ⟨caps, hcaps, rfl⟩ r hok
    exact (encode_captions_ok _ _ _ _ hok).2.2.2.2.1 [] hcaps rfl
  · rintro ⟨caps, hcaps, s, hs, rfl⟩ r hok
    obtain ⟨_, _, _, h4, _, _, hpos, _⟩ := encode_captions_ok _ _ _ _ hok
    have hmem : (0 : Nat) ∈ r.label_length := by
      rw [h4]
      have hfl : ([] : List String) ∈ finals.flatten :=
        List.mem_flatten.mpr ⟨caps, hcaps, hs⟩
      have := List.mem_map_of_mem (fun s => u32 (min maxLength s.length)) hfl
      simpa [u32] using this
    exact absurd (hpos 0 hmem) (by omega)
  · intro r hok
    obtain ⟨_, _, _, _, h5, _, hpos, _⟩ := encode_captions_ok _ _ _ _ hok
    exact ⟨h5, hpos⟩

/-- C5 witness: a corpus whose single record has no captions is
rejected. -/
theorem claim_encode_failures_witness :
    encode_captions [[]] 5 (wtoiOf ["a"]) ≠ .ok ⟨[], [], [], []⟩ :=
  (claim_encode_failures [[]] 5 (wtoiOf ["a"])).1
    ⟨[], List.mem_cons_self _ _, rfl⟩ ⟨[], [], [], []⟩

/-- C2: on success the span pointers are 1-indexed, start at 1, are
contiguous, cover exactly the caption count of each record, and their
sizes add up to the total caption count, which is the row count of the
label matrix; stated below the bound that the total caption count fits
a uint32 cell. -/
theorem claim_span_invariants (finals : Corpus) (maxLength : Nat)
    (wtoi : String → Option Nat) (r : EncodeResult)
    (hok : encode_captions finals maxLength wtoi = .ok r)
    (hM : (finals.map List.length).sum < 2 ^ 32) :
    r.label_start_ix.length = finals.length ∧
    r.label_end_ix.length = finals.length ∧
    r.L.length = (finals.map List.length).sum ∧
    r.label_length.length = (finals.map List.length).sum ∧
    r.label_start_ix.getD 0 0 = 1 ∧
    (∀ i, 0 < i → i < finals.length →
      r.label_start_ix.getD i 0 = r.label_end_ix.getD (i - 1) 0 + 1) ∧
    (∀ i, i < finals.length →
      r.label_end_ix.getD i 0 - r.label_start_ix.getD i 0 + 1 =
        (finals.getD i []).length) ∧
    (List.zipWith (fun e s => e - s + 1) r.label_end_ix r.label_start_ix).sum =
      (finals.map List.length).sum := by
  obtain ⟨r1, r2, r3, r4, r5, _, _, hne⟩ := encode_captions_ok finals maxLength wtoi r hok
  have hNpos : 0 < finals.length := List.length_pos.mpr hne
  have hn_pos : ∀ i, i < finals.length → 0 < (finals.getD i []).length := by
    intro i hi
    have hmem : finals.getD i [] ∈ finals := by
      rw [List.getD_eq_getElem _ _ hi]
      exact List.getElem_mem _
    exact List.length_pos.mpr (r5 _ hmem)
  have hTsucc : ∀ i, i < finals.length →
      ((finals.map List.length).take (i + 1)).sum =
        ((finals.map List.length).take i).sum + (finals.getD i []).length := by
    intro i hi
    rw [takeSum_succ _ _ (by simpa using hi), getD_map_of_lt List.length finals i hi []]
  have hstart : ∀ i, i < finals.length →
      r.label_start_ix.getD i 0 = 1 + ((finals.map List.length).take i).sum := by
    intro i hi
    rw [r2, spanStarts_getD finals 1 i hi]
    apply Nat.mod_eq_of_lt
    have h1 := hTsucc i hi
    have h2 := takeSum_le (finals.map List.length) (i + 1)
    have h3 := hn_pos i hi
    omega
  have hend : ∀ i, i < finals.length →
      r.label_end_ix.getD i 0 = ((finals.map List.length).take (i + 1)).sum := by
    intro i hi
    rw [r3, spanEnds_getD finals 1 i hi]
    have h1 := hTsucc i hi
    have h2 := takeSum_le (finals.map List.length) (i + 1)
    have h3 := hn_pos i hi
    have hsub : 1 + ((finals.map List.length).take (i + 1)).sum - 1 =
        ((finals.map List.length).take (i + 1)).sum := by omega
    rw [hsub]
    apply Nat.mod_eq_of_lt
    omega
  have hslen : r.label_start_ix.length = finals.length := by
    rw [r2, spanStarts_length]
  have helen : r.label_end_ix.length = finals.length := by
    rw [r3, spanEnds_length]
  have hspan : ∀ i, i < finals.length →
      r.label_end_ix.getD i 0 - r.label_start_ix.getD i 0 + 1 =
        (finals.getD i []).length := by
    intro i hi
    rw [hend i hi, hstart i hi]
    have h1 := hTsucc i hi
    have h3 := hn_pos i hi
    omega
  have hzip : List.zipWith (fun e s => e - s + 1) r.label_end_ix r.label_start_ix =
      finals.map List.length := by
    apply List.ext_getElem
    · rw [List.length_zipWith, hslen, helen, List.length_map]
      omega
    · intro i h1 h2
      have hi : i < finals.length := by
        rw [List.length_map] at h2
        exact h2
      have hbe : i < r.label_end_ix.length := by omega
      have hbs : i < r.label_start_ix.length := by omega
      rw [List.getElem_zipWith, List.getElem_map,
        ← List.getD_eq_getElem r.label_end_ix 0 hbe,
        ← List.getD_eq_getElem r.label_start_ix 0 hbs,
        ← List.getD_eq_getElem finals [] hi]
      exact hspan i hi
  refine ⟨hslen, helen, ?_, ?_, ?_, ?_, hspan, ?_⟩
  · rw [r1, List.length_map, List.length_flatten]
  · rw [r4, List.length_map, List.length_flatten]
  · have h0 := hstart 0 hNpos
    simpa using h0
  · intro i h0 hi
    rw [hstart i hi, hend (i - 1) (by omega)]
    rw [show i - 1 + 1 = i from by omega]
    omega
  · rw [hzip]

/-- C2 witness at a concrete two-record corpus. -/
theorem claim_span_invariants_witness :
    (⟨[[1, 0], [1, 2], [2, 0]], [1, 3], [2, 3],
      [1, 2, 1]⟩ : EncodeResult).label_start_ix.getD 0 0 = 1 := by
  have h := claim_span_invariants [[["a"], ["a", "b"]], [["b"]]] 2 (wtoiOf ["a", "b"])
    ⟨[[1, 0], [1, 2], [2, 0]], [1, 3], [2, 3], [1, 2, 1]⟩ (by rfl) (by decide)
  exact h.2.2.2.2.1

/-- C3: on success, the row of a caption with c tokens records length
min(max_length, c), its first min(max_length, c) cells hold the ids of
the tokens in order, and all later cells are zero; overlong captions
are truncated with no error. -/
theorem claim_row_truncation (finals : Corpus) (maxLength : Nat)
    (wtoi : String → Option Nat) (r : EncodeResult) (i j : Nat)
    (hok : encode_captions finals maxLength wtoi = .ok r)
    (hml : 1 ≤ maxLength) (hml32 : maxLength < 2 ^ 32)
    (hw32 : ∀ w v, wtoi w = some v → v < 2 ^ 32)
    (hi : i < finals.length) (hj : j < (finals.getD i []).length)
    (_hc : 1 ≤ ((finals.getD i []).getD j []).length) :
    r.label_length.getD (((finals.map List.length).take i).sum + j) 0 =
      min maxLength ((finals.getD i []).getD j []).length ∧
    (r.L.getD (((finals.map List.length).take i).sum + j) []).length = maxLength ∧
    (∀ k, k < min maxLength ((finals.getD i []).getD j []).length →
      wtoi (((finals.getD i []).getD j []).getD k "") =
        some ((r.L.getD (((finals.map List.length).take i).sum + j) []).getD k 0)) ∧
    (∀ k, min maxLength ((finals.getD i []).getD j []).length ≤ k →
      (r.L.getD (((finals.map List.length).take i).sum + j) []).getD k 0 = 0) := by
  obtain ⟨r1, _, _, r4, _, r6, _, _⟩ := encode_captions_ok finals maxLength wtoi r hok
  have hρ : ((finals.map List.length).take i).sum + j < (finals.map List.length).sum :=
    takeSum_add_lt finals i j hi hj
  have hρf : ((finals.map List.length).take i).sum + j < finals.flatten.length := by
    simpa [List.length_flatten] using hρ
  have hsget : finals.flatten.getD (((finals.map List.length).take i).sum + j) [] =
      (finals.getD i []).getD j [] := flatten_getD finals i j hi hj []
  have hsmem : (finals.getD i []).getD j [] ∈ finals.flatten := by
    rw [← hsget, List.getD_eq_getElem _ _ hρf]
    exact List.getElem_mem _
  have hlen : r.label_length.getD (((finals.map List.length).take i).sum + j) 0 =
      min maxLength ((finals.getD i []).getD j []).length := by
    rw [r4, getD_map_of_lt _ _ _ hρf [] _, hsget]
    simp only [u32]
    exact Nat.mod_eq_of_lt (by omega)
  have hrow : r.L.getD (((finals.map List.length).take i).sum + j) [] =
      pureRow wtoi maxLength ((finals.getD i []).getD j []) := by
    rw [r1, getD_map_of_lt _ _ _ hρf [] _, hsget]
  refine ⟨hlen, ?_, ?_, ?_⟩
  · rw [hrow, pureRow_length]
  · intro k hk
    obtain ⟨v, hv⟩ := Option.isSome_iff_exists.mp
      (r6 _ hsmem _ (getD_mem_take _ maxLength k hk))
    rw [hrow, pureRow_getD_lt wtoi maxLength _ k hk, hv]
    simp only [Option.getD_some, Option.some.injEq, u32]
    exact (Nat.mod_eq_of_lt (hw32 _ _ hv)).symm
  · intro k hk
    rw [hrow, pureRow_getD_ge wtoi maxLength _ k hk]

/-- C3 witness: a three-token caption encoded with max_length 2 keeps
its first two ids and records length 2. -/
theorem claim_row_truncation_witness :
    (⟨[[1, 2]], [1], [1], [2]⟩ : EncodeResult).label_length.getD 0 0 =
      min 2 (([[["a", "b", "c"]]] : Corpus).getD 0 [] |>.getD 0 []).length := by
  have h := claim_row_truncation [[["a", "b", "c"]]] 2 (wtoiOf ["a", "b", "c"])
    ⟨[[1, 2]], [1], [1], [2]⟩ 0 0 (by rfl) (by decide) (by decide)
    (fun w v hv => by
      have hb := wtoiOf_bounds _ _ _ hv
      have : (3 : Nat) < 2 ^ 32 := by decide
      simp only [List.length_cons, List.length_nil] at hb
      omega)
    (by decide) (by decide) (by decide)
  exact h.1

/-- C10: on a successful pipeline run, every recorded row length equals
the number of nonzero cells of that row: ids are never zero, the first
length cells are positive, the rest are zero. -/
theorem claim_length_counts_nonzeros (toks : Corpus) (thr maxLength : Nat)
    (r : EncodeResult)
    (hok : encode_captions (final_captions toks thr) maxLength
      (wtoiOf (build_vocab toks thr)) = .ok r)
    (hv32 : (build_vocab toks thr).length < 2 ^ 32)
    (hml32 : maxLength < 2 ^ 32) :
    ∀ p, p < r.L.length →
      (r.L.getD p []).countP (fun x => x != 0) = r.label_length.getD p 0 ∧
      (∀ k, k < r.label_length.getD p 0 → 1 ≤ (r.L.getD p []).getD k 0) ∧
      (∀ k, r.label_length.getD p 0 ≤ k → (r.L.getD p []).getD k 0 = 0) := by
  intro p hp
  obtain ⟨r1, _, _, r4, _, r6, _, _⟩ :=
    encode_captions_ok (final_captions toks thr) maxLength
      (wtoiOf (build_vocab toks thr)) r hok
  have hpf : p < (final_captions toks thr).flatten.length := by
    have := congrArg List.length r1
    simp only [List.length_map] at this
    omega
  have hsmem : (final_captions toks thr).flatten.getD p [] ∈
      (final_captions toks thr).flatten := by
    rw [List.getD_eq_getElem _ _ hpf]
    exact List.getElem_mem _
  have hrow : r.L.getD p [] =
      pureRow (wtoiOf (build_vocab toks thr)) maxLength
        ((final_captions toks thr).flatten.getD p []) := by
    rw [r1, getD_map_of_lt _ _ _ hpf [] _]
  have hlen : r.label_length.getD p 0 =
      min maxLength ((final_captions toks thr).flatten.getD p []).length := by
    rw [r4, getD_map_of_lt _ _ _ hpf [] _]
    simp only [u32]
    exact Nat.mod_eq_of_lt (by omega)
  have hid_pos : ∀ k, k < min maxLength
      ((final_captions toks thr).flatten.getD p []).length →
      1 ≤ (r.L.getD p []).getD k 0 := by
    intro k hk
    obtain ⟨v, hv⟩ := Option.isSome_iff_exists.mp
      (r6 _ hsmem _ (getD_mem_take _ maxLength k hk))
    have hb := wtoiOf_bounds _ _ _ hv
    rw [hrow, pureRow_getD_lt _ maxLength _ k hk, hv]
    simp only [Option.getD_some, u32]
    rw [Nat.mod_eq_of_lt (by omega)]
    omega
  refine ⟨?_, by rw [hlen] at *; exact hid_pos, ?_⟩
  · rw [hrow, hlen, pureRow]
    rw [List.countP_append]
    have hmapped : ((((final_captions toks thr).flatten.getD p []).take
        maxLength).map (fun w => u32 (((wtoiOf (build_vocab toks thr)) w).getD 0))).countP
          (fun x => x != 0) =
        min maxLength ((final_captions toks thr).flatten.getD p []).length := by
      rw [List.countP_eq_length.mpr, List.length_map, List.length_take]
      intro a ha
      obtain ⟨w, hwmem, rfl⟩ := List.mem_map.mp ha
      obtain ⟨v, hv⟩ := Option.isSome_iff_exists.mp (r6 _ hsmem w hwmem)
      have hb := wtoiOf_bounds _ _ _ hv
      rw [hv]
      simp only [Option.getD_some, u32]
      rw [Nat.mod_eq_of_lt (by omega)]
      simpa using by omega
    have hzeros : (List.replicate
        (maxLength - ((final_captions toks thr).flatten.getD p []).length) (0 : Nat)).countP
          (fun x => x != 0) = 0 := by
      rw [List.countP_eq_zero]
      intro a ha
      rw [List.eq_of_mem_replicate ha]
      simp
    rw [hmapped, hzeros]
    omega
  · intro k hk
    rw [hlen] at hk
    rw [hrow, pureRow_getD_ge _ maxLength _ k hk]

/-- C10 witness at a concrete run with a truncation-free corpus. -/
theorem claim_length_counts_nonzeros_witness :
    ((⟨[[1, 1, 0], [2, 0, 0]], [1], [2], [2, 1]⟩ : EncodeResult).L.getD 0 []).countP
        (fun x => x != 0) =
      (⟨[[1, 1, 0], [2, 0, 0]], [1], [2], [2, 1]⟩ : EncodeResult).label_length.getD 0 0 := by
  have h := claim_length_counts_nonzeros [[["a", "a"], ["b"]]] 1 3
    ⟨[[1, 1, 0], [2, 0, 0]], [1], [2], [2, 1]⟩ (by rfl) (by decide) (by decide)
    0 (by decide)
  exact h.1

/-- C8: the pipeline is a deterministic function of its input and
configuration: two runs with the same seeded shuffle, the same raw
records and the same parameters give the same record order, the same
vocabulary and word-to-id table, the same splits and the same encoded
arrays. -/
theorem claim_pipeline_deterministic (sh : List RawImg → List RawImg)
    (raw1 raw2 : List RawImg) (p1 p2 : Params)
    (hraw : raw1 = raw2) (hp : p1 = p2) :
    run_pipeline sh raw1 p1 = run_pipeline sh raw2 p2 ∧
    (run_pipeline sh raw1 p1).order = (run_pipeline sh raw2 p2).order ∧
    (∀ w, wtoiOf (run_pipeline sh raw1 p1).vocab w =
      wtoiOf (run_pipeline sh raw2 p2).vocab w) ∧
    (run_pipeline sh raw1 p1).encoded = (run_pipeline sh raw2 p2).encoded := by
  subst hraw
  subst hp
  exact ⟨rfl, rfl, fun w => rfl, rfl⟩

/-- C8 witness at a concrete one-record run. -/
theorem claim_pipeline_deterministic_witness :
    run_pipeline id [⟨"x.jpg", ["a dog"]⟩] ⟨1, 16, 0, 0⟩ =
      run_pipeline id [⟨"x.jpg", ["a dog"]⟩] ⟨1, 16, 0, 0⟩ :=
  (claim_pipeline_deterministic id _ _ _ _ rfl rfl).1

end Prepro
